import Mathlib

/-!
Verification of the rs-conllu CoNLL-U parsing library.

The data model (`TokenID`, `Dep`, `Token`, `UPOS`), the sentence builder
(`SentenceBuilder`, `Sentence`, `get_token`, `get_token_mut`) and
`UPOS.from_str` are embedded from `src/src/lib.rs` / `src/src/sentence.rs`.
The column parsers and the document driver live in modules (`parsers.rs`,
`token.rs`) whose sources are not in the tree; those are modelled from the
specification (each such definition carries a `Modelled from the spec:`
doc comment).

Rust's `HashMap<TokenID, usize>` is embedded extensionally as the function
`TokenID → Option Nat`; `insert` overwrites the previous binding, and
`collect()` from an iterator of pairs is a left fold of `insert` starting
from the empty map, which matches `std::collections::HashMap`'s observable
`get`/`insert`/`FromIterator` behaviour (later pairs override earlier ones).
The `HashMap<String, String>` of `Token.features` is embedded as `HashMapSS`,
the canonical key-sorted association list of the represented mapping, so
that Lean equality coincides with Rust `HashMap` equality; like the Rust
type, it retains no insertion order.
-/

deriving instance DecidableEq for Except

namespace RsConllu

/-- `TokenID` from `token.rs` (declared by `lib.rs`, shapes fixed by the
spec §3): `Single n`, `Range start end`, `Sub n part`. -/
inductive TokenID where
  | Single : Nat → TokenID
  | Range : Nat → Nat → TokenID
  | Sub : Nat → Nat → TokenID
deriving DecidableEq, Repr

/-- `Dep` from `token.rs`: a secondary dependency edge. -/
structure Dep where
  head : TokenID
  rel : String
deriving DecidableEq, Repr

/-- `ParseUposError` from `lib.rs`: the dedicated unit error type of
`UPOS::from_str`. -/
structure ParseUposError where
deriving DecidableEq, Repr

/-- `UPOS` from `lib.rs`: the closed set of 17 universal POS tags. -/
inductive UPOS where
  | ADJ | ADP | ADV | AUX | CCONJ | DET | INTJ | NOUN | NUM
  | PART | PRON | PROPN | PUNCT | SCONJ | SYM | VERB | X
deriving DecidableEq, Repr, Fintype

/-- `UPOS::from_str` from `lib.rs` lines 99–125: a match on the 17 tag
strings, everything else is `Err(ParseUposError)`. -/
def UPOS.from_str (value : String) : Except ParseUposError UPOS :=
  if value = "ADJ" then .ok .ADJ
  else if value = "ADP" then .ok .ADP
  else if value = "ADV" then .ok .ADV
  else if value = "AUX" then .ok .AUX
  else if value = "CCONJ" then .ok .CCONJ
  else if value = "DET" then .ok .DET
  else if value = "INTJ" then .ok .INTJ
  else if value = "NOUN" then .ok .NOUN
  else if value = "NUM" then .ok .NUM
  else if value = "PART" then .ok .PART
  else if value = "PRON" then .ok .PRON
  else if value = "PROPN" then .ok .PROPN
  else if value = "PUNCT" then .ok .PUNCT
  else if value = "SCONJ" then .ok .SCONJ
  else if value = "SYM" then .ok .SYM
  else if value = "VERB" then .ok .VERB
  else if value = "X" then .ok .X
  else .error ⟨⟩

/-- The 17 tag strings accepted by `UPOS::from_str`. -/
def uposStrings : List String :=
  ["ADJ", "ADP", "ADV", "AUX", "CCONJ", "DET", "INTJ", "NOUN", "NUM",
   "PART", "PRON", "PROPN", "PUNCT", "SCONJ", "SYM", "VERB", "X"]

/-- A strict total order on character lists: lexicographic by code
point.  Used only to pick canonical representatives of unordered maps. -/
def strLtCore : List Char → List Char → Bool
  | [], [] => false
  | [], _ :: _ => true
  | _ :: _, [] => false
  | a :: as, b :: bs =>
    if a.toNat < b.toNat then true
    else if b.toNat < a.toNat then false
    else strLtCore as bs

/-- A strict total order on strings (lexicographic by code point). -/
def strLt (a b : String) : Bool := strLtCore a.data b.data

/-- Extensional model of Rust's `HashMap<String, String>`, the type of
`Token.features` exhibited by `tests/file_parse_test.rs`: the represented
key→value mapping, kept as its canonical association list strictly sorted
by key.  `std::collections::HashMap` exposes no ordering of its own — its
iteration order is arbitrary and its `PartialEq` compares the key→value
mappings only — so equality of canonical forms coincides with Rust
`HashMap` equality, and no insertion (declaration) order is retained. -/
abbrev HashMapSS := List (String × String)

/-- `HashMap::insert` on the canonical form: place the binding at its key
position, overriding any previous binding for the same key. -/
def hmsInsert : HashMapSS → String → String → HashMapSS
  | [], k, v => [(k, v)]
  | (k', v') :: rest, k, v =>
    if strLt k k' then (k, v) :: (k', v') :: rest
    else if k = k' then (k, v) :: rest
    else (k', v') :: hmsInsert rest k v

/-- `HashMap::get` on the canonical form. -/
def hmsFind : HashMapSS → String → Option String
  | [], _ => none
  | (k', v') :: rest, k => if k = k' then some v' else hmsFind rest k

/-- `collect()` into a `HashMap<String, String>` from a sequence of
pairs: repeated insertion into the empty map, later pairs overriding
earlier ones with the same key. -/
def hmsCollect (ps : List (String × String)) : HashMapSS :=
  ps.foldl (fun m p => hmsInsert m p.1 p.2) []

/-- `Token` from `token.rs` (fields as exhibited by
`tests/file_parse_test.rs` and spec §3).  `features` is the unordered
`Option<HashMap<String, String>>` that `tests/file_parse_test.rs` line 27
pins down, embedded canonically via `HashMapSS`. -/
structure Token where
  id : TokenID
  form : String
  «lemma» : Option String
  upos : Option UPOS
  xpos : Option String
  features : Option HashMapSS
  head : Option TokenID
  deprel : Option String
  deps : Option (List Dep)
  misc : Option String
deriving DecidableEq, Repr

/-- Extensional model of Rust's `HashMap<TokenID, usize>`: the lookup
function it represents. -/
def HashMapTN : Type := TokenID → Option Nat

/-- `HashMap::new()` / the empty map. -/
def hmEmpty : HashMapTN := fun _ => none

/-- `HashMap::insert`: the new binding overrides any previous one for the
same key. -/
def hmInsert (m : HashMapTN) (k : TokenID) (v : Nat) : HashMapTN :=
  fun q => if q = k then some v else m q

/-- `collect()` into a `HashMap` from a sequence of `(key, value)` pairs:
repeated insertion into the empty map, later pairs overriding earlier
ones. -/
def hmCollect (ps : List (TokenID × Nat)) : HashMapTN :=
  ps.foldl (fun m p => hmInsert m p.1 p.2) hmEmpty

/-- `Sentence` from `lib.rs` lines 127–132. -/
structure Sentence where
  meta : List String
  tokens : List Token
  id_to_index : HashMapTN

/-- `Sentence::get_token` from `lib.rs` lines 139–145: look the id up in
`id_to_index`; on a hit return `tokens.get(idx)`, otherwise `None`. -/
def Sentence.get_token (s : Sentence) (id : TokenID) : Option Token :=
  match s.id_to_index id with
  | some idx => s.tokens[idx]?
  | none => none

/-- `Sentence::get_token_mut` from `lib.rs` lines 158–164: the same lookup
as `get_token`, but handing back a mutable reference, embedded as the
addressed position together with the token currently stored there. -/
def Sentence.get_token_mut (s : Sentence) (id : TokenID) : Option (Nat × Token) :=
  match s.id_to_index id with
  | some idx => (s.tokens[idx]?).map fun t => (idx, t)
  | none => none

/-- `SentenceBuilder` from `lib.rs` lines 185–189. -/
structure SentenceBuilder where
  tokens : List Token
  meta : List String

/-- `SentenceBuilder::default()`. -/
def SentenceBuilder.default : SentenceBuilder := ⟨[], []⟩

/-- `SentenceBuilder::with_tokens` from `lib.rs` lines 192–195: assigns
`self.tokens = tokens`. -/
def SentenceBuilder.with_tokens (b : SentenceBuilder) (tokens : List Token) :
    SentenceBuilder :=
  { b with tokens := tokens }

/-- `SentenceBuilder::with_meta` from `lib.rs` lines 197–200: assigns
`self.meta = meta`. -/
def SentenceBuilder.with_meta (b : SentenceBuilder) (meta : List String) :
    SentenceBuilder :=
  { b with meta := meta }

/-- `SentenceBuilder::push_token` from `lib.rs` lines 202–205: appends one
token. -/
def SentenceBuilder.push_token (b : SentenceBuilder) (token : Token) :
    SentenceBuilder :=
  { b with tokens := b.tokens ++ [token] }

/-- `SentenceBuilder::build` from `lib.rs` lines 207–221:
`id_to_index` is collected from `tokens.iter().map(|t| t.id).enumerate()
.map(|(i, token)| (token, i))`. -/
def SentenceBuilder.build (b : SentenceBuilder) : Sentence :=
  { meta := b.meta
    tokens := b.tokens
    id_to_index :=
      hmCollect (((b.tokens.map Token.id).enum).map fun p => (p.2, p.1)) }

/-- Split a character list at every occurrence of the separator `c`;
`n` separators yield `n + 1` (possibly empty) pieces. -/
def splitOnChar (c : Char) : List Char → List (List Char)
  | [] => [[]]
  | x :: xs =>
    if x = c then [] :: splitOnChar c xs
    else
      match splitOnChar c xs with
      | [] => [[x]]
      | y :: ys => (x :: y) :: ys

/-- Split a string at every occurrence of the separator character. -/
def splitStr (c : Char) (s : String) : List String :=
  (splitOnChar c s.data).map fun cs => ⟨cs⟩

/-- Split a character list at the first occurrence of `c`; `none` when
`c` does not occur. -/
def splitFirst (c : Char) : List Char → Option (List Char × List Char)
  | [] => none
  | x :: xs =>
    if x = c then some ([], xs)
    else (splitFirst c xs).map fun p => (x :: p.1, p.2)

/-- The numeric value of a decimal digit character. -/
def charDigit? (ch : Char) : Option Nat :=
  if '0' ≤ ch ∧ ch ≤ '9' then some (ch.toNat - '0'.toNat) else none

/-- Accumulate decimal digits left to right; any non-digit fails. -/
def parseNatCore : List Char → Nat → Option Nat
  | [], acc => some acc
  | ch :: rest, acc =>
    match charDigit? ch with
    | some d => parseNatCore rest (acc * 10 + d)
    | none => none

/-- Parse a non-empty all-digits string as a natural number
(`usize::from_str` on the digit strings the grammar admits). -/
def parseNatStr (s : String) : Option Nat :=
  match s.data with
  | [] => none
  | l => parseNatCore l 0

/-- Modelled from the spec: §4.1 Token ID Parser (source `parsers.rs` is
not in the tree).  `"8"` → `Single 8` (digits; `"0"` also parses, the
documented HEAD exception of §4.4); `"8-9"` → `Range 8 9` (hyphen
required, both sides positive integers, left < right); `"8.1"` →
`Sub 8 1` (exactly one decimal point, both sides positive integers); any
other shape is an error. -/
def parse_token_id (s : String) : Option TokenID :=
  match splitStr '-' s with
  | [a, b] =>
    match parseNatStr a, parseNatStr b with
    | some x, some y => if 0 < x ∧ x < y then some (.Range x y) else none
    | _, _ => none
  | [u] =>
    match splitStr '.' u with
    | [a, b] =>
      match parseNatStr a, parseNatStr b with
      | some x, some y => if 0 < x ∧ 0 < y then some (.Sub x y) else none
      | _, _ => none
    | [v] => (parseNatStr v).map TokenID.Single
    | _ => none
  | _ => none

/-- The error kinds of spec §7: malformed token-id shape, wrong field
count, unknown UPOS tag, malformed feature pair, malformed dependency
descriptor. -/
inductive ParseErr where
  | fieldCount
  | badId
  | badUpos
  | badFeature
  | badDep
deriving DecidableEq, Repr

/-- Modelled from the spec: §4.2 — one `key=value` pair, split on the
first `=`; a pair without `=` is a malformed feature. -/
def parse_feature_pair (p : String) : Option (String × String) :=
  match splitFirst '=' p.data with
  | none => none
  | some (k, v) => some (⟨k⟩, ⟨v⟩)

/-- Modelled from the spec: §4.2 Feature Parser (source `parsers.rs` is
not in the tree, but `tests/file_parse_test.rs` pins the target type to
`HashMap<String, String>`).  `_` → absent; otherwise split on `|` into
`key=value` pairs, each split on the first `=`, and collect them into the
unordered feature map — a duplicate key's last occurrence wins (§4.2);
the `HashMap` target retains no declaration order. -/
def parse_features (s : String) : Except ParseErr (Option HashMapSS) :=
  if s = "_" then .ok none
  else
    match (splitStr '|' s).mapM parse_feature_pair with
    | some pairs => .ok (some (hmsCollect pairs))
    | none => .error .badFeature

/-- Modelled from the spec: §4.3 — one edge descriptor, split on the
first `:` into a head `TokenID` (§4.1 grammar) and the relation label,
which is the entire remainder and may itself contain colons. -/
def parse_dep (d : String) : Option Dep :=
  match splitFirst ':' d.data with
  | none => none
  | some (h, rest) =>
    match parse_token_id ⟨h⟩ with
    | some hid => some ⟨hid, ⟨rest⟩⟩
    | none => none

/-- Modelled from the spec: §4.3 Dependency Parser (source `parsers.rs`
is not in the tree).  `_` → absent; otherwise split on `|` into edge
descriptors, order preserved, no deduplication. -/
def parse_deps (s : String) : Except ParseErr (Option (List Dep)) :=
  if s = "_" then .ok none
  else
    match (splitStr '|' s).mapM parse_dep with
    | some ds => .ok (some ds)
    | none => .error .badDep

/-- A column whose text is the placeholder `_` is absent, otherwise the
literal string (spec §3 / §4.4, for LEMMA, XPOS, DEPREL, MISC). -/
def optStr (s : String) : Option String := if s = "_" then none else some s

/-- Modelled from the spec: §4.4 Token Parser (source `parsers.rs` is not
in the tree).  Split the line on tab into exactly 10 fields (otherwise a
fatal field-count error) and parse each column. -/
def parse_token (line : String) : Except ParseErr Token :=
  match splitStr '\t' line with
  | [idf, form, lm, uposf, xposf, featsf, headf, deprelf, depsf, miscf] => do
    let tid ← match parse_token_id idf with
      | some t => Except.ok t
      | none => Except.error ParseErr.badId
    let ups ← if uposf = "_" then Except.ok none
      else
        match UPOS.from_str uposf with
        | .ok u => Except.ok (some u)
        | .error _ => Except.error ParseErr.badUpos
    let fs ← parse_features featsf
    let hd ← if headf = "_" then Except.ok none
      else
        match parse_token_id headf with
        | some t => Except.ok (some t)
        | none => Except.error ParseErr.badId
    let ds ← parse_deps depsf
    Except.ok
      { id := tid
        form := form
        «lemma» := optStr lm
        upos := ups
        xpos := optStr xposf
        features := fs
        head := hd
        deprel := optStr deprelf
        deps := ds
        misc := optStr miscf }
  | _ => .error .fieldCount

/-- A comment line starts with `#` (spec §4.5). -/
def isComment (l : String) : Bool :=
  match l.data with
  | [] => false
  | ch :: _ => ch = '#'

/-- Modelled from the spec: §4.5/§6 direct single-sentence entry point
(`parse_sentence`, source `parsers.rs` is not in the tree): comment lines
accumulate into `meta`, data lines are parsed and appended in encounter
order, the first parse error propagates directly to the caller (§7). -/
def assembleSentence (m : List String) (t : List Token) (lines : List String) :
    Except ParseErr Sentence :=
  match lines with
  | [] => .ok (SentenceBuilder.build ⟨t, m⟩)
  | l :: rest =>
    if l = "" then assembleSentence m t rest
    else if isComment l then assembleSentence (m ++ [l]) t rest
    else
      match parse_token l with
      | .ok tok => assembleSentence m (t ++ [tok]) rest
      | .error e => .error e

/-- `parse_sentence` on a sequence of lines. -/
def parse_sentence (lines : List String) : Except ParseErr Sentence :=
  assembleSentence [] [] lines

/-- The two driver states of spec §4.6, plus the error-recovery mode in
which the remainder of a failed sentence is discarded until the next
blank line. -/
inductive DocState where
  | between
  | inSentence (meta : List String) (tokens : List Token)
  | skipErr
deriving Repr

/-- Modelled from the spec: §4.6 Document Parser (source `parsers.rs` is
not in the tree).  Line-by-line state machine: blank lines finalize and
emit the sentence in progress (or are ignored between sentences), comment
lines accumulate into the current sentence's meta, data lines are parsed
and appended; a data-line failure yields an error item for the sentence
being built and discards the remainder of that sentence until the next
blank line; end of stream finalizes any pending sentence. -/
def docRun (st : DocState) (lines : List String) : List (Except ParseErr Sentence) :=
  match lines with
  | [] =>
    match st with
    | .between => []
    | .inSentence m t => [Except.ok (SentenceBuilder.build ⟨t, m⟩)]
    | .skipErr => []
  | l :: rest =>
    if l = "" then
      match st with
      | .inSentence m t =>
          Except.ok (SentenceBuilder.build ⟨t, m⟩) :: docRun .between rest
      | _ => docRun .between rest
    else if isComment l then
      match st with
      | .between => docRun (.inSentence [l] []) rest
      | .inSentence m t => docRun (.inSentence (m ++ [l]) t) rest
      | .skipErr => docRun .skipErr rest
    else
      match st with
      | .skipErr => docRun .skipErr rest
      | .between =>
        match parse_token l with
        | .ok tok => docRun (.inSentence [] [tok]) rest
        | .error e => Except.error e :: docRun .skipErr rest
      | .inSentence m t =>
        match parse_token l with
        | .ok tok => docRun (.inSentence m (t ++ [tok])) rest
        | .error e => Except.error e :: docRun .skipErr rest

/-- `parse_file` / `Doc`: the whole-document entry point, driving the
state machine from `BetweenSentences` over the stream's lines. -/
def parse_doc (lines : List String) : List (Except ParseErr Sentence) :=
  docRun .between lines

/-- The items a driver state still owes the output when a blank line (or
the end of the stream) is reached: the pending sentence, if any. -/
def emitPending (st : DocState) : List (Except ParseErr Sentence) :=
  match st with
  | .inSentence m t => [Except.ok (SentenceBuilder.build ⟨t, m⟩)]
  | _ => []

/-- A well-formed 10-column data line (token `Hello`). -/
def lineHello : String := "1\tHello\thello\t_\t_\t_\t_\t_\t_\t_"

/-- A well-formed 10-column data line (token `World`). -/
def lineWorld : String := "1\tWorld\tworld\t_\t_\t_\t_\t_\t_\t_"

/-- A malformed data line with only 9 tab-separated fields. -/
def lineNine : String := "1\tHello\thello\t_\t_\t_\t_\t_\t_"

/-- The token `lineHello` parses to. -/
def tokHello : Token :=
  { id := .Single 1, form := "Hello", «lemma» := some "hello", upos := none,
    xpos := none, features := none, head := none, deprel := none,
    deps := none, misc := none }

/-- The token `lineWorld` parses to. -/
def tokWorld : Token :=
  { id := .Single 1, form := "World", «lemma» := some "world", upos := none,
    xpos := none, features := none, head := none, deprel := none,
    deps := none, misc := none }

/-- The value of the last pair of `ps` carrying key `k`, if any. -/
def lastValue (ps : List (String × String)) (k : String) : Option String :=
  (ps.reverse.find? fun p => decide (p.1 = k)).map Prod.snd

/-- The feature keys of a FEATS column value in the order they are
written (the declaration order of the input text). -/
def featsKeyOrder (s : String) : List String :=
  (splitStr '|' s).filterMap fun p =>
    (splitFirst '=' p.data).map fun q => (⟨q.1⟩ : String)

/-- `i` is the position of the last token of `ts` whose id is `q`. -/
def IsLastIdx (ts : List Token) (q : TokenID) (i : Nat) : Prop :=
  (∃ t, ts[i]? = some t ∧ t.id = q) ∧
    ∀ j t, i < j → ts[j]? = some t → t.id ≠ q

theorem build_id_to_index_concat (ts : List Token) (t : Token) (m : List String)
    (q : TokenID) :
    (SentenceBuilder.build ⟨ts ++ [t], m⟩).id_to_index q =
      if q = t.id then some ts.length
      else (SentenceBuilder.build ⟨ts, m⟩).id_to_index q := by
  simp [SentenceBuilder.build, hmCollect, hmInsert, List.enum_append,
    List.enumFrom_cons, List.foldl_append]

theorem build_id_to_index_nil (m : List String) (q : TokenID) :
    (SentenceBuilder.build ⟨[], m⟩).id_to_index q = none := rfl

/-- The index built by `SentenceBuilder::build` maps `q` to `some i`
exactly when `i` is the last position in the token list holding id `q`. -/
theorem build_id_to_index_spec (ts : List Token) (m : List String)
    (q : TokenID) (i : Nat) :
    (SentenceBuilder.build ⟨ts, m⟩).id_to_index q = some i ↔ IsLastIdx ts q i := by
  induction ts using List.reverseRecOn with
  | nil =>
    simp [build_id_to_index_nil, IsLastIdx]
  | append_singleton ts t ih =>
    rw [build_id_to_index_concat]
    by_cases hq : q = t.id
    · simp only [hq, if_pos rfl]
      constructor
      · rintro h
        injection h with h
        subst h
        refine ⟨⟨t, ?_, rfl⟩, ?_⟩
        · simp
        · intro j t' hj hget
          exfalso
          have hlen : j < ts.length + 1 := by
            by_contra hge
            rw [List.getElem?_eq_none (by simpa using Nat.le_of_not_lt hge)] at hget
            exact Option.noConfusion hget
          omega
      · rintro ⟨⟨t', hget, hid⟩, hlast⟩
        have hi : i = ts.length := by
          by_contra hne
          have hlt : i < ts.length := by
            have : i < ts.length + 1 := by
              by_contra hge
              rw [List.getElem?_eq_none (by simpa using Nat.le_of_not_lt hge)] at hget
              exact Option.noConfusion hget
            omega
          exact hlast ts.length t hlt (by simp) (hq ▸ rfl)
        subst hi
        rfl
    · simp only [if_neg hq]
      rw [ih]
      constructor
      · rintro ⟨⟨t', hget, hid⟩, hlast⟩
        have hlt : i < ts.length := by
          by_contra hge
          rw [List.getElem?_eq_none (Nat.le_of_not_lt hge)] at hget
          exact Option.noConfusion hget
        refine ⟨⟨t', ?_, hid⟩, ?_⟩
        · rwa [List.getElem?_append_left hlt]
        · intro j t'' hj hget'
          by_cases hjlen : j < ts.length
          · exact hlast j t'' hj (by rwa [List.getElem?_append_left hjlen] at hget')
          · intro hid'
            apply hq
            have hjlen' : j < ts.length + 1 := by
              by_contra hge
              rw [List.getElem?_eq_none (by simpa using Nat.le_of_not_lt hge)] at hget'
              exact Option.noConfusion hget'
            have hj_eq : j = ts.length := by omega
            subst hj_eq
            have : t'' = t := by
              have := hget'
              rw [List.getElem?_concat_length] at this
              injection this with h
              exact h.symm
            rw [← hid', this]
      · rintro ⟨⟨t', hget, hid⟩, hlast⟩
        have hlt : i < ts.length := by
          have hlen : i < ts.length + 1 := by
            by_contra hge
            rw [List.getElem?_eq_none (by simpa using Nat.le_of_not_lt hge)] at hget
            exact Option.noConfusion hget
          by_contra hge
          have hi_eq : i = ts.length := by omega
          subst hi_eq
          rw [List.getElem?_concat_length] at hget
          injection hget with h
          exact hq (by rw [← hid, ← h])
        refine ⟨⟨t', ?_, hid⟩, ?_⟩
        · rwa [List.getElem?_append_left hlt] at hget
        · intro j t'' hj hget'
          have hjlen : j < ts.length := by
            by_contra hge
            rw [List.getElem?_eq_none (Nat.le_of_not_lt hge)] at hget'
            exact Option.noConfusion hget'
          exact hlast j t'' hj (by rwa [List.getElem?_append_left hjlen])

/-- The index maps `q` to `none` exactly when no token of `ts` has id `q`. -/
theorem build_id_to_index_none (ts : List Token) (m : List String) (q : TokenID) :
    (SentenceBuilder.build ⟨ts, m⟩).id_to_index q = none ↔
      ∀ t ∈ ts, t.id ≠ q := by
  induction ts using List.reverseRecOn with
  | nil => simp [build_id_to_index_nil]
  | append_singleton ts t ih =>
    rw [build_id_to_index_concat]
    by_cases hq : q = t.id
    · simp only [hq, if_pos rfl]
      constructor
      · intro h
        exact Option.noConfusion h
      · intro h
        exact absurd rfl (h t (List.mem_append.mpr (Or.inr (List.mem_singleton.mpr rfl))))
    · simp only [if_neg hq, ih]
      constructor
      · intro h t' ht'
        rcases List.mem_append.mp ht' with h1 | h2
        · exact h t' h1
        · rcases List.mem_singleton.mp h2 with rfl
          exact fun he => hq he.symm
      · intro h t' ht'
        exact h t' (List.mem_append.mpr (Or.inl ht'))

theorem get_token_def (s : Sentence) (q : TokenID) :
    s.get_token q = (s.id_to_index q).bind fun idx => s.tokens[idx]? := by
  unfold Sentence.get_token
  cases s.id_to_index q <;> rfl

theorem get_token_mut_def (s : Sentence) (q : TokenID) :
    s.get_token_mut q =
      (s.id_to_index q).bind fun idx => (s.tokens[idx]?).map fun t => (idx, t) := by
  unfold Sentence.get_token_mut
  cases s.id_to_index q <;> rfl

theorem splitFirst_at_sep (c : Char) (pre post : List Char) (hpre : c ∉ pre) :
    splitFirst c (pre ++ c :: post) = some (pre, post) := by
  induction pre with
  | nil => simp [splitFirst]
  | cons x xs ih =>
    simp only [List.mem_cons, not_or] at hpre
    simp only [List.cons_append, splitFirst, List.append_eq]
    rw [if_neg (fun h => hpre.1 h.symm), ih hpre.2]
    rfl

theorem splitOnChar_ne_nil (c : Char) (l : List Char) : splitOnChar c l ≠ [] := by
  cases l with
  | nil => simp [splitOnChar]
  | cons x xs =>
    simp only [splitOnChar]
    split
    · simp
    · split <;> simp

theorem splitOnChar_at_sep (c : Char) (xs ys : List Char) (hxs : c ∉ xs) :
    splitOnChar c (xs ++ c :: ys) = xs :: splitOnChar c ys := by
  induction xs with
  | nil => simp [splitOnChar]
  | cons x l ih =>
    simp only [List.mem_cons, not_or] at hxs
    simp only [List.cons_append, splitOnChar, List.append_eq]
    rw [if_neg (fun h => hxs.1 h.symm), ih hxs.2]

/-- C4: `UPOS::from_str` accepts exactly the 17 tag strings; every other
string — `"VVERB"` in particular — yields the dedicated `ParseUposError`
value, and in the token parser that error (`badUpos`) is distinct from the
absent-column reading of `_`, which parses to `upos = none`. -/
theorem upos_from_str_closed :
    (∀ s ∈ uposStrings, ∃ u, UPOS.from_str s = Except.ok u) ∧
    (∀ s : String, s ∉ uposStrings → UPOS.from_str s = Except.error ⟨⟩) ∧
    UPOS.from_str "VVERB" = Except.error ⟨⟩ ∧
    parse_token "1\tx\t_\tVVERB\t_\t_\t_\t_\t_\t_" = Except.error ParseErr.badUpos ∧
    (parse_token "1\tx\t_\t_\t_\t_\t_\t_\t_\t_").map Token.upos = Except.ok none := by
  refine ⟨?_, ?_, by decide, by decide, by decide⟩
  · intro s hs
    simp only [uposStrings, List.mem_cons, List.not_mem_nil, or_false] at hs
    rcases hs with rfl | rfl | rfl | rfl | rfl | rfl | rfl | rfl | rfl | rfl |
      rfl | rfl | rfl | rfl | rfl | rfl | rfl <;> decide
  · intro s hs
    simp only [uposStrings, List.mem_cons, List.not_mem_nil, or_false,
      not_or] at hs
    obtain ⟨n1, n2, n3, n4, n5, n6, n7, n8, n9, n10, n11, n12, n13, n14,
      n15, n16, n17⟩ := hs
    unfold UPOS.from_str
    rw [if_neg n1, if_neg n2, if_neg n3, if_neg n4, if_neg n5, if_neg n6,
      if_neg n7, if_neg n8, if_neg n9, if_neg n10, if_neg n11, if_neg n12,
      if_neg n13, if_neg n14, if_neg n15, if_neg n16, if_neg n17]

theorem upos_from_str_closed_witness :
    (∃ u, UPOS.from_str "NOUN" = Except.ok u) ∧
    UPOS.from_str "QQQ" = Except.error ⟨⟩ :=
  ⟨upos_from_str_closed.1 "NOUN" (by decide),
   upos_from_str_closed.2.1 "QQQ" (by decide)⟩

/-- C5: the TokenID parser sends `"8"` to `Single 8`, `"8-9"` to
`Range 8 9`, `"8.1"` to `Sub 8 1`; a `Range` needs both sides positive
and left < right (so `"8-7"` fails), a `Sub` needs both sides positive;
non-numeric text, malformed separators and non-positive range parts are
errors. -/
theorem token_id_parser_shapes :
    parse_token_id "8" = some (.Single 8) ∧
    parse_token_id "8-9" = some (.Range 8 9) ∧
    parse_token_id "8.1" = some (.Sub 8 1) ∧
    parse_token_id "8-7" = none ∧
    parse_token_id "8-8" = none ∧
    parse_token_id "abc" = none ∧
    parse_token_id "8--9" = none ∧
    parse_token_id "8-" = none ∧
    parse_token_id "0-9" = none ∧
    parse_token_id "8.0" = none ∧
    parse_token_id "8.1.2" = none ∧
    parse_token_id "" = none ∧
    (∀ s a b, parse_token_id s = some (.Range a b) → 0 < a ∧ a < b) ∧
    (∀ s a b, parse_token_id s = some (.Sub a b) → 0 < a ∧ 0 < b) := by
  refine ⟨by decide, by decide, by decide, by decide, by decide, by decide,
    by decide, by decide, by decide, by decide, by decide, by decide, ?_, ?_⟩
  · intro s a b h
    unfold parse_token_id at h
    repeat' split at h
    all_goals simp_all
  · intro s a b h
    unfold parse_token_id at h
    repeat' split at h
    all_goals simp_all

theorem token_id_parser_shapes_witness :
    (0 < 3 ∧ 3 < 7) ∧ (0 < 2 ∧ 0 < 5) :=
  ⟨token_id_parser_shapes.2.2.2.2.2.2.2.2.2.2.2.2.1 "3-7" 3 7 (by decide),
   token_id_parser_shapes.2.2.2.2.2.2.2.2.2.2.2.2.2 "2.5" 2 5 (by decide)⟩

/-- C6: the DEPS parser splits a non-`_` value on `|` into descriptors in
order; each descriptor is split at its first `:` only, the relation label
being the entire remainder (colons included); `2:nsubj|4:nsubj` gives
exactly the edges `Single 2 → nsubj` then `Single 4 → nsubj`. -/
theorem deps_parser_spec :
    parse_deps "2:nsubj|4:nsubj" =
      Except.ok (some [⟨.Single 2, "nsubj"⟩, ⟨.Single 4, "nsubj"⟩]) ∧
    parse_deps "2:nsubj:extra" = Except.ok (some [⟨.Single 2, "nsubj:extra"⟩]) ∧
    parse_deps "8.1:acl:relcl" = Except.ok (some [⟨.Sub 8 1, "acl:relcl"⟩]) ∧
    parse_deps "_" = Except.ok none ∧
    (∀ pre post, ':' ∉ pre →
      parse_dep ⟨pre ++ ':' :: post⟩ =
        (parse_token_id ⟨pre⟩).map fun hid => Dep.mk hid ⟨post⟩) ∧
    (∀ xs ys, '|' ∉ xs →
      splitOnChar '|' (xs ++ '|' :: ys) = xs :: splitOnChar '|' ys) := by
  refine ⟨by decide, by decide, by decide, by decide, ?_, splitOnChar_at_sep '|'⟩
  intro pre post hpre
  unfold parse_dep
  rw [show splitFirst ':' (String.mk (pre ++ ':' :: post)).data = some (pre, post)
    from splitFirst_at_sep ':' pre post hpre]
  cases h : parse_token_id ⟨pre⟩ <;> simp [h]

theorem deps_parser_spec_witness :
    parse_dep ⟨['4'] ++ ':' :: ['o', 'b', 'l', ':', 'x']⟩ =
      (parse_token_id ⟨['4']⟩).map (fun hid => Dep.mk hid ⟨['o', 'b', 'l', ':', 'x']⟩) ∧
    splitOnChar '|' (['a'] ++ '|' :: ['b']) = ['a'] :: splitOnChar '|' ['b'] :=
  ⟨deps_parser_spec.2.2.2.2.1 ['4'] ['o', 'b', 'l', ':', 'x'] (by decide),
   deps_parser_spec.2.2.2.2.2 ['a'] ['b'] (by decide)⟩

theorem hmsFind_insert (m : HashMapSS) (k v k' : String) :
    hmsFind (hmsInsert m k v) k' = if k' = k then some v else hmsFind m k' := by
  induction m with
  | nil =>
    by_cases h : k' = k <;> simp [hmsInsert, hmsFind, h]
  | cons p rest ih =>
    obtain ⟨k1, v1⟩ := p
    by_cases hlt : strLt k k1
    · simp only [hmsInsert, if_pos hlt]
      by_cases h : k' = k <;> simp [hmsFind, h]
    · by_cases heq : k = k1
      · simp only [hmsInsert, if_neg hlt, if_pos heq]
        subst heq
        by_cases h : k' = k <;> simp [hmsFind, h]
      · simp only [hmsInsert, if_neg hlt, if_neg heq]
        by_cases h : k' = k
        · subst h
          simp [hmsFind, heq, ih]
        · by_cases h' : k' = k1 <;> simp [hmsFind, h, h', ih, Ne.symm heq]

theorem hmsFind_collect (ps : List (String × String)) :
    ∀ (m0 : HashMapSS) (k : String),
      hmsFind (ps.foldl (fun m p => hmsInsert m p.1 p.2) m0) k =
        match lastValue ps k with
        | some v => some v
        | none => hmsFind m0 k := by
  induction ps with
  | nil =>
    intro m0 k
    simp [lastValue]
  | cons p rest ih =>
    intro m0 k
    rw [List.foldl_cons, ih]
    have hrev : (p :: rest).reverse = rest.reverse ++ [p] := by simp
    unfold lastValue
    rw [hrev, List.find?_append]
    cases hfind : rest.reverse.find? fun q => decide (q.1 = k) with
    | some q =>
      simp [lastValue, hfind, Option.or]
    | none =>
      simp only [lastValue, hfind, Option.none_or, Option.map_none']
      by_cases h : p.1 = k
      · simp [List.find?, h, hmsFind_insert]
      · simp [List.find?, h, hmsFind_insert, Ne.symm h]

/-- C2 counterexample: `Token.features` is an unordered
`HashMap<String, String>` (pinned by `tests/file_parse_test.rs`), so the
stored mapping cannot preserve declaration order: the FEATS values
`B=2|A=1` and `A=1|B=2`, whose written orders differ, parse to the very
same mapping — indeed to equal `Token`s through the whole token parser. -/
theorem feats_order_not_preserved :
    featsKeyOrder "B=2|A=1" = ["B", "A"] ∧
    featsKeyOrder "A=1|B=2" = ["A", "B"] ∧
    parse_features "B=2|A=1" = parse_features "A=1|B=2" ∧
    parse_token "1\tx\t_\t_\t_\tB=2|A=1\t_\t_\t_\t_" =
      parse_token "1\tx\t_\t_\t_\tA=1|B=2\t_\t_\t_\t_" := by
  refine ⟨by decide, by decide, by decide, by decide⟩

/-- C2 (amended): a non-`_` FEATS value parses to the unordered feature
map holding exactly the written pairs, a duplicate key's last occurrence
winning; `Case=Nom|Number=Plur` yields exactly the two entries
`Case → Nom` and `Number → Plur` (also through the whole token parser);
declaration order itself is not retained by the map. -/
theorem feats_exact_entries :
    parse_features "Case=Nom|Number=Plur" =
      Except.ok (some [("Case", "Nom"), ("Number", "Plur")]) ∧
    (parse_token
        "1\tThey\tthey\tPRON\tPRP\tCase=Nom|Number=Plur\t2\tnsubj\t2:nsubj|4:nsubj\t_").map
      Token.features = Except.ok (some [("Case", "Nom"), ("Number", "Plur")]) ∧
    parse_features "_" = Except.ok none ∧
    parse_features "A=1|A=2" = Except.ok (some [("A", "2")]) ∧
    (∀ (s : String) (pairs : List (String × String)),
      (splitStr '|' s).mapM parse_feature_pair = some pairs → s ≠ "_" →
      ∃ m, parse_features s = Except.ok (some m) ∧
        ∀ k, hmsFind m k = lastValue pairs k) := by
  refine ⟨by decide, by decide, by decide, by decide, ?_⟩
  intro s pairs hpairs hs
  refine ⟨hmsCollect pairs, ?_, ?_⟩
  · unfold parse_features
    rw [if_neg hs, hpairs]
  · intro k
    rw [hmsCollect, hmsFind_collect pairs [] k]
    cases lastValue pairs k <;> rfl

theorem feats_exact_entries_witness :
    ∃ m, parse_features "Case=Nom|Number=Plur" = Except.ok (some m) ∧
      ∀ k, hmsFind m k = lastValue [("Case", "Nom"), ("Number", "Plur")] k :=
  feats_exact_entries.2.2.2.2 "Case=Nom|Number=Plur"
    [("Case", "Nom"), ("Number", "Plur")] (by decide) (by decide)

/-- C10: `with_tokens` replaces the builder's accumulated token list
outright (tokens added before, by `push_token` or an earlier
`with_tokens`, are discarded, nothing is appended) and `with_meta`
likewise replaces the meta lines; building after `with_tokens ts` yields
a sentence whose tokens are exactly `ts`. -/
theorem with_tokens_replaces (b : SentenceBuilder) (ts ts' : List Token)
    (t : Token) (ms : List String) :
    ((b.with_tokens ts).build).tokens = ts ∧
    (b.push_token t).with_tokens ts = b.with_tokens ts ∧
    (b.with_tokens ts').with_tokens ts = b.with_tokens ts ∧
    (b.with_meta ms).meta = ms ∧
    ((b.push_token t).with_tokens ts).build.tokens = ts := by
  refine ⟨rfl, rfl, rfl, rfl, rfl⟩

theorem assembleSentence_all_data (lines : List String) :
    ∀ (m : List String) (t ts' : List Token),
      (∀ l ∈ lines, l ≠ "" ∧ isComment l = false) →
      lines.mapM parse_token = Except.ok ts' →
      assembleSentence m t lines = .ok (SentenceBuilder.build ⟨t ++ ts', m⟩) := by
  induction lines with
  | nil =>
    intro m t ts' _ hok
    simp only [List.mapM_nil, pure, Except.pure] at hok
    injection hok with hok
    subst hok
    simp [assembleSentence]
  | cons l rest ih =>
    intro m t ts' hdata hok
    obtain ⟨h1, h2⟩ := hdata l (List.mem_cons_self l rest)
    rw [List.mapM_cons] at hok
    cases hpt : parse_token l with
    | error e =>
      rw [hpt] at hok
      simp [Bind.bind, Except.bind] at hok
    | ok tok =>
      rw [hpt] at hok
      cases hrest : rest.mapM parse_token with
      | error e =>
        rw [hrest] at hok
        simp [Bind.bind, Except.bind, pure, Except.pure] at hok
      | ok ts'' =>
        rw [hrest] at hok
        simp only [Bind.bind, Except.bind, pure, Except.pure] at hok
        injection hok with hok
        subst hok
        unfold assembleSentence
        rw [if_neg h1, if_neg (by simp [h2]), hpt]
        show assembleSentence m (t ++ [tok]) rest = _
        rw [ih m (t ++ [tok]) ts'' (fun l hl => hdata l (List.mem_cons_of_mem _ hl)) hrest]
        simp

/-- C1: building a sentence from tokens with pairwise distinct ids keeps
exactly those tokens in the supplied order, and looking any of them up by
its own id returns that very token; a sequence of well-formed data lines
parses (via the direct sentence entry point) to the sentence built from
its tokens, so the same holds for parsed sentences. -/
theorem build_distinct_ids_lookup (ts : List Token) (m : List String)
    (hnodup : (ts.map Token.id).Nodup) :
    (SentenceBuilder.build ⟨ts, m⟩).tokens = ts ∧
    (∀ t ∈ ts, (SentenceBuilder.build ⟨ts, m⟩).get_token t.id = some t) ∧
    (∀ lines : List String, (∀ l ∈ lines, l ≠ "" ∧ isComment l = false) →
      lines.mapM parse_token = Except.ok ts →
      parse_sentence lines = .ok (SentenceBuilder.build ⟨ts, []⟩)) := by
  refine ⟨rfl, ?_, ?_⟩
  · intro t ht
    obtain ⟨i, hi⟩ := List.mem_iff_getElem?.mp ht
    have hlast : IsLastIdx ts t.id i := by
      refine ⟨⟨t, hi, rfl⟩, ?_⟩
      intro j t'' hij hj hid
      have hmi : (ts.map Token.id)[i]? = some t.id := by
        rw [List.getElem?_map, hi, Option.map_some']
      have hmj : (ts.map Token.id)[j]? = some t.id := by
        rw [List.getElem?_map, hj, Option.map_some', hid]
      have hilen : i < (ts.map Token.id).length := by
        by_contra hge
        rw [List.getElem?_eq_none (Nat.le_of_not_lt hge)] at hmi
        exact Option.noConfusion hmi
      exact absurd (List.getElem?_inj hilen hnodup (hmi.trans hmj.symm)) (Nat.ne_of_lt hij)
    have hidx : (SentenceBuilder.build ⟨ts, m⟩).id_to_index t.id = some i :=
      (build_id_to_index_spec ts m t.id i).mpr hlast
    rw [get_token_def, hidx, Option.some_bind]
    exact hi
  · intro lines hdata hok
    unfold parse_sentence
    rw [assembleSentence_all_data lines [] [] ts hdata hok]
    simp

theorem build_distinct_ids_lookup_witness :
    ((SentenceBuilder.build ⟨[tokHello, tokWorld], []⟩).tokens = [tokHello, tokWorld]) ∧
    (SentenceBuilder.build ⟨[tokHello], []⟩).get_token tokHello.id = some tokHello ∧
    parse_sentence [lineHello] = .ok (SentenceBuilder.build ⟨[tokHello], []⟩) := by
  have h2 := build_distinct_ids_lookup [tokHello] [] (by decide)
  refine ⟨rfl, h2.2.1 tokHello (by decide), h2.2.2 [lineHello] (by decide) (by decide)⟩

/-- C3: a builder fed two tokens with the same id keeps both, in encounter
order, but the index entry for that id is the position of the last
occurrence, so `get_token` returns the later token. -/
theorem duplicate_id_last_wins (ts : List Token) (m : List String) (q : TokenID)
    (i j : Nat) (t' : Token)
    (_hij : j < i) (_hj : ts[j]? = some t') (_hjid : t'.id = q)
    (hlast : IsLastIdx ts q i) :
    (SentenceBuilder.build ⟨ts, m⟩).tokens = ts ∧
    (SentenceBuilder.build ⟨ts, m⟩).id_to_index q = some i ∧
    (SentenceBuilder.build ⟨ts, m⟩).get_token q = ts[i]? := by
  have hidx : (SentenceBuilder.build ⟨ts, m⟩).id_to_index q = some i :=
    (build_id_to_index_spec ts m q i).mpr hlast
  refine ⟨rfl, hidx, ?_⟩
  rw [get_token_def, hidx, Option.some_bind]
  rfl

theorem duplicate_id_last_wins_witness :
    (SentenceBuilder.build ⟨[tokHello, tokWorld], []⟩).tokens = [tokHello, tokWorld] ∧
    (SentenceBuilder.build ⟨[tokHello, tokWorld], []⟩).id_to_index (TokenID.Single 1) = some 1 ∧
    (SentenceBuilder.build ⟨[tokHello, tokWorld], []⟩).get_token (TokenID.Single 1) =
      [tokHello, tokWorld][1]? := by
  refine duplicate_id_last_wins [tokHello, tokWorld] [] (.Single 1) 1 0 tokHello
    (by decide) (by decide) (by decide) ⟨⟨tokWorld, by decide, by decide⟩, ?_⟩
  intro j t hj hget
  have : j ≥ 2 := hj
  rw [List.getElem?_eq_none (by simpa using this)] at hget
  exact Option.noConfusion hget

/-- C9: in every built sentence each `id_to_index` entry points inside the
token vector at a token carrying that id; `get_token q` is some token with
id `q` exactly when the sentence contains a token with id `q` (and `none`
otherwise), and `get_token_mut` succeeds for exactly the ids `get_token`
does, addressing the same position. -/
theorem built_index_entries_valid (b : SentenceBuilder) (q : TokenID) :
    (∀ i, b.build.id_to_index q = some i →
      ∃ t, b.build.tokens[i]? = some t ∧ t.id = q) ∧
    (∀ t, b.build.get_token q = some t → t.id = q) ∧
    ((∃ t, b.build.get_token q = some t ∧ t.id = q) ↔
      ∃ t ∈ b.build.tokens, t.id = q) ∧
    (b.build.get_token q = none ↔ ∀ t ∈ b.build.tokens, t.id ≠ q) ∧
    b.build.get_token q = (b.build.get_token_mut q).map Prod.snd := by
  obtain ⟨ts, m⟩ := b
  have hvalid : ∀ i, (SentenceBuilder.build ⟨ts, m⟩).id_to_index q = some i →
      ∃ t, ts[i]? = some t ∧ t.id = q := by
    intro i hi
    obtain ⟨⟨t, hget, hid⟩, _⟩ := (build_id_to_index_spec ts m q i).mp hi
    exact ⟨t, hget, hid⟩
  refine ⟨hvalid, ?_, ?_, ?_, ?_⟩
  · intro t ht
    rw [get_token_def] at ht
    cases hidx : (SentenceBuilder.build ⟨ts, m⟩).id_to_index q with
    | none => rw [hidx, Option.none_bind] at ht; exact Option.noConfusion ht
    | some i =>
      rw [hidx, Option.some_bind] at ht
      obtain ⟨t', hget', hid'⟩ := hvalid i hidx
      have ht2 : ts[i]? = some t := ht
      rw [ht2] at hget'
      injection hget' with h
      rw [← h] at hid'
      exact hid'
  · constructor
    · rintro ⟨t, hget, hid⟩
      rw [get_token_def] at hget
      cases hidx : (SentenceBuilder.build ⟨ts, m⟩).id_to_index q with
      | none => rw [hidx, Option.none_bind] at hget; exact Option.noConfusion hget
      | some i =>
        rw [hidx, Option.some_bind] at hget
        exact ⟨t, List.getElem?_mem hget, hid⟩
    · rintro ⟨t, hmem, hid⟩
      cases hidx : (SentenceBuilder.build ⟨ts, m⟩).id_to_index q with
      | none =>
        exact absurd hid ((build_id_to_index_none ts m q).mp hidx t hmem)
      | some i =>
        obtain ⟨t', hget', hid'⟩ := hvalid i hidx
        refine ⟨t', ?_, hid'⟩
        rw [get_token_def, hidx, Option.some_bind]
        exact hget'
  · constructor
    · intro hnone t hmem
      rw [get_token_def] at hnone
      cases hidx : (SentenceBuilder.build ⟨ts, m⟩).id_to_index q with
      | none => exact (build_id_to_index_none ts m q).mp hidx t hmem
      | some i =>
        obtain ⟨t', hget', _⟩ := hvalid i hidx
        rw [hidx, Option.some_bind] at hnone
        have hnone2 : ts[i]? = none := hnone
        rw [hnone2] at hget'
        exact Option.noConfusion hget'
    · intro hall
      have hidx : (SentenceBuilder.build ⟨ts, m⟩).id_to_index q = none :=
        (build_id_to_index_none ts m q).mpr hall
      rw [get_token_def, hidx, Option.none_bind]
  · rw [get_token_def, get_token_mut_def]
    cases hidx : (SentenceBuilder.build ⟨ts, m⟩).id_to_index q with
    | none => rfl
    | some i =>
      rw [Option.some_bind, Option.some_bind]
      cases (SentenceBuilder.build ⟨ts, m⟩).tokens[i]? <;> rfl

theorem built_index_entries_valid_witness :
    (∃ t, (SentenceBuilder.build ⟨[tokHello], []⟩).tokens[0]? = some t ∧
      t.id = TokenID.Single 1) ∧
    tokHello.id = TokenID.Single 1 :=
  ⟨(built_index_entries_valid ⟨[tokHello], []⟩ (.Single 1)).1 0 (by decide),
   (built_index_entries_valid ⟨[tokHello], []⟩ (.Single 1)).2.1 tokHello (by decide)⟩

theorem docRun_trailing_blank (lines : List String) :
    ∀ st, docRun st (lines ++ [""]) = docRun st lines := by
  induction lines with
  | nil =>
    intro st
    cases st <;> rfl
  | cons l rest ih =>
    intro st
    by_cases hl : l = ""
    · subst hl
      cases st <;> simp [List.cons_append, docRun, ih, List.append_eq]
    · by_cases hc : isComment l = true
      · cases st <;> simp [List.cons_append, docRun, hl, hc, ih, List.append_eq]
      · cases st with
        | between =>
          cases hpt : parse_token l <;>
            simp [List.cons_append, docRun, hl, hc, hpt, ih, List.append_eq]
        | inSentence m t =>
          cases hpt : parse_token l <;>
            simp [List.cons_append, docRun, hl, hc, hpt, ih, List.append_eq]
        | skipErr =>
          simp [List.cons_append, docRun, hl, hc, ih, List.append_eq]

/-- C7: a data line that fails to parse (here: 9 fields instead of 10)
makes the driver yield an error item for the sentence being built and
skip to the next blank line, after which parsing restarts from scratch,
so later well-formed sentences of the same stream still come out; the
output after a blank line never depends on what came before it. -/
theorem malformed_line_isolated :
    (∀ (l : String) (m : List String) (t : List Token) (e : ParseErr)
        (rest : List String),
      l ≠ "" → isComment l = false → parse_token l = Except.error e →
      docRun (.inSentence m t) (l :: rest) =
        Except.error e :: docRun .skipErr rest) ∧
    (∀ (st : DocState) (rest : List String),
      docRun st ("" :: rest) = emitPending st ++ parse_doc rest) ∧
    (parse_doc [lineNine, "", lineWorld]).map (Except.map Sentence.tokens) =
      [Except.error ParseErr.fieldCount, Except.ok [tokWorld]] := by
  refine ⟨?_, ?_, by decide⟩
  · intro l m t e rest hl hc hpt
    simp only [docRun, if_neg hl, hpt]
    rw [if_neg (show ¬isComment l = true by simp [hc])]
  · intro st rest
    cases st <;> simp [docRun, emitPending, parse_doc]

theorem malformed_line_isolated_witness :
    docRun (.inSentence [] []) [lineNine] =
      Except.error ParseErr.fieldCount :: docRun .skipErr [] :=
  malformed_line_isolated.1 lineNine [] [] ParseErr.fieldCount []
    (by decide) (by decide) (by decide)

/-- C8: a stream of two sentences separated by one or more blank lines
yields exactly two sentence items, and a trailing blank line at the end of
the stream never changes the output: pending content at end of stream is
finalized and emitted just as a blank line would. -/
theorem two_sentences_two_items :
    (∀ (st : DocState) (lines : List String),
      docRun st (lines ++ [""]) = docRun st lines) ∧
    (parse_doc [lineHello, "", lineWorld]).map (Except.map Sentence.tokens) =
      [Except.ok [tokHello], Except.ok [tokWorld]] ∧
    (parse_doc [lineHello, "", "", lineWorld]).map (Except.map Sentence.tokens) =
      [Except.ok [tokHello], Except.ok [tokWorld]] ∧
    parse_doc [lineHello, "", lineWorld, ""] = parse_doc [lineHello, "", lineWorld] := by
  refine ⟨fun st lines => docRun_trailing_blank lines st, by decide, by decide, ?_⟩
  show docRun .between ([lineHello, "", lineWorld] ++ [""]) =
    docRun .between [lineHello, "", lineWorld]
  exact docRun_trailing_blank [lineHello, "", lineWorld] .between

end RsConllu
